import Mathlib

/-!
# Verification of the serde_compact name-compaction core

Shallow embedding of `src/lib.rs` of the `serde_compact` crate:

* `ALPHABET`, `NameMapper.get_name` (the base-52 alias encoder),
* `NameMapper.new` (sorted-name → alias mapping),
* the `NameCollector` visitor and the `NameMapper` `Fold` impl
  (`fold_field` / `fold_variant`), over a model of the `syn` item AST,
* the `compact` attribute-macro pipeline.

Rust `HashSet`s are modelled as duplicate-free lists, `HashMap`s as
association lists, `panic!`/`expect` as `Option.none`, and the external
`syn` attribute parser as an explicit function parameter.
-/

namespace SerdeCompact

/-- The 52-symbol alias alphabet from `src/lib.rs` (`ALPHABET`):
lowercase `a`–`z` followed by uppercase `A`–`Z`, in that order. -/
def ALPHABET : List Char :=
  ['a', 'b', 'c', 'd', 'e', 'f', 'g', 'h', 'i', 'j', 'k', 'l', 'm', 'n', 'o',
   'p', 'q', 'r', 's', 't', 'u', 'v', 'w', 'x', 'y', 'z', 'A', 'B', 'C', 'D',
   'E', 'F', 'G', 'H', 'I', 'J', 'K', 'L', 'M', 'N', 'O', 'P', 'Q', 'R', 'S',
   'T', 'U', 'V', 'W', 'X', 'Y', 'Z']

/-- The digit sequence (least-significant first) produced by the `loop` in
`NameMapper::get_name`: repeatedly take `value % 52`, divide by 52, stop
when the quotient is zero.  Digit values, before the `ALPHABET` lookup. -/
def digits52 (v : Nat) : List Nat :=
  if h : v / 52 = 0 then [v % 52] else v % 52 :: digits52 (v / 52)
termination_by v
decreasing_by
  exact Nat.div_lt_self (Nat.pos_of_ne_zero fun hv => h (by simp [hv]))
    (by norm_num)

/-- The character list accumulated by the `loop` in `NameMapper::get_name`
(in push order, least-significant symbol first):
`name.push(ALPHABET[(value % base) as usize]); value /= base;` until the
quotient is zero.  `base` is `ALPHABET.len() = 52`. -/
def getNameAux (value : Nat) : List Char :=
  let base := ALPHABET.length
  if h : value / base = 0 then [ALPHABET.getD (value % base) 'a']
  else ALPHABET.getD (value % base) 'a' :: getNameAux (value / base)
termination_by value
decreasing_by
  exact Nat.div_lt_self (Nat.pos_of_ne_zero fun hv => h (by simp [hv]))
    (by decide)

/-- Model of `NameMapper::get_name`: encode a vocabulary index in base
`ALPHABET`, then reverse (`name.chars().rev().collect()`), so the most
significant symbol comes first. -/
def get_name (value : Nat) : String :=
  ⟨(getNameAux value).reverse⟩

/-- Model of `NameMapper::new`: sort the collected names (the `HashSet`
argument is modelled as a duplicate-free list), then map each name to the
alias of its index in sorted order.  The `HashMap` is modelled as an
association list. -/
def NameMapper.new (names : List String) : List (String × String) :=
  let sorted_names := List.insertionSort (· ≤ ·) names
  sorted_names.enum.map fun p => (p.2, get_name p.1)

/-! ## Model of the `syn` item AST

Only the parts the macro reads or writes are modelled precisely
(identifiers and attribute lists); everything else a node carries
(visibility, type, discriminant, generics, …) is bundled into opaque
payload strings, which the transform must leave untouched. -/

/-- Model of a `syn::Attribute`.  The rename directives the macro builds by
parsing `#[serde(rename = "…")]` are `serdeRename`; every other attribute
already present on a node is `other` with an opaque payload. -/
inductive Attribute where
  | serdeRename (a : String)
  | other (payload : String)
deriving DecidableEq

/-- Model of a `syn::Field`: its outer attributes, its optional identifier
(`None` for positional/tuple fields), and an opaque payload standing for
the visibility, type, etc. -/
structure Field where
  attrs : List Attribute
  ident : Option String
  ty : String
deriving DecidableEq

/-- Model of a `syn::Variant`: outer attributes, identifier, the fields of
the variant (empty for unit variants), and an opaque payload standing for
the discriminant. -/
structure Variant where
  attrs : List Attribute
  ident : String
  fields : List Field
  discriminant : Option String
deriving DecidableEq

/-- Model of a `syn::Item` restricted to the shapes the macro is used on:
a struct (ordered fields) or an enum (ordered variants). -/
inductive Item where
  | structItem (ident : String) (attrs : List Attribute) (fields : List Field)
  | enumItem (ident : String) (attrs : List Attribute) (variants : List Variant)
deriving DecidableEq

/-! ## The `NameCollector` visitor

The Rust visitor accumulates into a `HashSet<String>`.  We model the
visit as producing the stream of inserted names in visit order; the set is
the stream's `dedup`. -/

/-- Model of `NameCollector::visit_field`: insert the field's identifier if
it has one; anonymous fields contribute nothing. -/
def NameCollector.visit_field (node : Field) : List String :=
  match node.ident with
  | some ident => [ident]
  | none => []

/-- Model of `NameCollector::visit_variant`: insert the variant's
identifier, then recurse into the variant's fields
(`visit::visit_variant`). -/
def NameCollector.visit_variant (node : Variant) : List String :=
  node.ident :: node.fields.flatMap NameCollector.visit_field

/-- Model of `NameCollector::visit_item`: the default `syn` traversal
reaches every field of a struct and every variant (with its nested fields)
of an enum. -/
def NameCollector.visit_item : Item → List String
  | .structItem _ _ fields => fields.flatMap NameCollector.visit_field
  | .enumItem _ _ variants => variants.flatMap NameCollector.visit_variant

/-- The set of names collected for an item: the visit stream with
duplicates collapsed (the `HashSet` contents). -/
def collectedNames (it : Item) : List String :=
  (NameCollector.visit_item it).dedup

/-! ## The `NameMapper` fold

`fold_field` / `fold_variant` call
`Attribute::parse_outer.parse_str(&format!("#[serde(rename = \"{}\")]", rename))`,
an external `syn` parser.  The composite `parse_str ∘ format!` is a
function of `rename` alone, so it is modelled as an explicit parameter
`parse : String → Option (List Attribute)` applied to the rename string;
`Err` is `none`.  The `expect("Failed to find mapping")` panic is modelled
as `Option.none` propagating out of the whole fold. -/

/-- Model of `NameMapper::fold_field`: for a named field, look the name up
in the map (panic — `none` — if absent), and if the attribute fragment
parses, `pop` the parsed attribute (`getLast?`) and `push` it onto the
field's attributes; on a parse `Err` the `if let Ok` silently skips the
push.  Unnamed fields pass through. -/
def NameMapper.fold_field (m : List (String × String))
    (parse : String → Option (List Attribute)) (node : Field) : Option Field :=
  match node.ident with
  | some ident =>
    match m.lookup ident with
    | none => none
    | some rename =>
      match parse rename with
      | some attrs =>
        match attrs.getLast? with
        | some attr => some { node with attrs := node.attrs ++ [attr] }
        | none => some node
      | none => some node
  | none => some node

/-- Sequential fold of a field list, propagating the panic (`none`). -/
def NameMapper.fold_fields (m : List (String × String))
    (parse : String → Option (List Attribute)) : List Field → Option (List Field)
  | [] => some []
  | f :: fs =>
    match NameMapper.fold_field m parse f, NameMapper.fold_fields m parse fs with
    | some f2, some fs2 => some (f2 :: fs2)
    | _, _ => none

/-- Model of `NameMapper::fold_variant`: look up the variant's identifier
(panic — `none` — if absent), push the parsed rename attribute if the
fragment parses, then let the default `fold::fold_variant` recurse into
the variant's fields with `fold_field`. -/
def NameMapper.fold_variant (m : List (String × String))
    (parse : String → Option (List Attribute)) (node : Variant) : Option Variant :=
  match m.lookup node.ident with
  | none => none
  | some rename =>
    let node2 :=
      match parse rename with
      | some attrs =>
        match attrs.getLast? with
        | some attr => { node with attrs := node.attrs ++ [attr] }
        | none => node
      | none => node
    match NameMapper.fold_fields m parse node2.fields with
    | some fs => some { node2 with fields := fs }
    | none => none

/-- Sequential fold of a variant list, propagating the panic (`none`). -/
def NameMapper.fold_variants (m : List (String × String))
    (parse : String → Option (List Attribute)) : List Variant → Option (List Variant)
  | [] => some []
  | v :: vs =>
    match NameMapper.fold_variant m parse v, NameMapper.fold_variants m parse vs with
    | some v2, some vs2 => some (v2 :: vs2)
    | _, _ => none

/-- Model of `NameMapper`'s `fold_item` (the default `syn` fold dispatches
to `fold_field` on struct fields and `fold_variant` on enum variants; the
item's own identifier and attributes are untouched). -/
def NameMapper.fold_item (m : List (String × String))
    (parse : String → Option (List Attribute)) : Item → Option Item
  | .structItem ident attrs fields =>
    match NameMapper.fold_fields m parse fields with
    | some fs => some (.structItem ident attrs fs)
    | none => none
  | .enumItem ident attrs variants =>
    match NameMapper.fold_variants m parse variants with
    | some vs => some (.enumItem ident attrs vs)
    | none => none

/-- Modelled from the spec: the external `syn` attribute parser applied to
a fragment `#[serde(rename = "…")]` built from an alias.  The parser
itself is outside this repository; per the spec (§7) such fragments always
parse, yielding exactly the one rename attribute, so the successful
composite `parse_str ∘ format!` is the function below. -/
def synParseRename (rename : String) : Option (List Attribute) :=
  some [Attribute.serdeRename rename]

/-- Model of the `compact` attribute macro body: collect the names, build
the mapper from the collected set, and fold the item. -/
def compact (input : Item) : Option Item :=
  NameMapper.fold_item (NameMapper.new (collectedNames input)) synParseRename input

/-! ## Auxiliary and specification-side definitions used by the theorems -/

/-- Decoder for `digits52`: the value of a little-endian base-52 digit
list. -/
def ofDigits52 : List Nat → Nat
  | [] => 0
  | d :: ds => d + 52 * ofDigits52 ds

/-- Specification-side predicate (spec §4.1): `s` is the name of a field
that carries a name, including fields nested inside enum variants. -/
def isFieldNameOf (s : String) : Item → Prop
  | .structItem _ _ fields => ∃ f ∈ fields, f.ident = some s
  | .enumItem _ _ variants => ∃ v ∈ variants, ∃ f ∈ v.fields, f.ident = some s

/-- Specification-side predicate (spec §4.1): `s` is the identifier of a
variant of the declaration. -/
def isVariantNameOf (s : String) : Item → Prop
  | .structItem _ _ _ => False
  | .enumItem _ _ variants => ∃ v ∈ variants, v.ident = s

/-- Specification-side rewrite of one field (spec §4.3): a named field
gets exactly one rename directive appended after its existing attributes;
an unnamed field is untouched. -/
def rewriteSpecField (al : String → Option String) (f : Field) : Field :=
  match f.ident with
  | none => f
  | some n =>
    match al n with
    | some a => { f with attrs := f.attrs ++ [Attribute.serdeRename a] }
    | none => f

/-- Specification-side rewrite of one variant (spec §4.3): the variant
gets one rename directive appended, and its fields are rewritten in
place; nothing else changes. -/
def rewriteSpecVariant (al : String → Option String) (v : Variant) : Variant :=
  { v with
    attrs := (match al v.ident with
      | some a => v.attrs ++ [Attribute.serdeRename a]
      | none => v.attrs)
    fields := v.fields.map (rewriteSpecField al) }

/-- Specification-side rewrite of a declaration (spec §4.3): the same
tree, with every named field and every variant carrying its appended
rename directive. -/
def rewriteSpecItem (al : String → Option String) : Item → Item
  | .structItem ident attrs fields =>
    .structItem ident attrs (fields.map (rewriteSpecField al))
  | .enumItem ident attrs variants =>
    .enumItem ident attrs (variants.map (rewriteSpecVariant al))

/-- Lookup function for the name→alias mapping the pipeline builds for a
given item. -/
def aliasOf (it : Item) (n : String) : Option String :=
  (NameMapper.new (collectedNames it)).lookup n

/-- Alias strings as the code actually produces them: non-empty words
over the alphabet whose leading (most-significant) symbol is not the zero
digit `a` unless the word is a single symbol. -/
def isAliasString (s : String) : Prop :=
  s.data ≠ [] ∧ (∀ c ∈ s.data, c ∈ ALPHABET) ∧
    (s.data.length = 1 ∨ s.data.head? ≠ some 'a')

/-- The variant list of an item (empty for a struct). -/
def variantsOf : Item → List Variant
  | .structItem _ _ _ => []
  | .enumItem _ _ variants => variants

unseal digits52 getNameAux String.ltb

/-! ## Basic facts about the base-52 encoder -/

theorem ALPHABET_length : ALPHABET.length = 52 := rfl

theorem digits52_ne_nil (v : Nat) : digits52 v ≠ [] := by
  rw [digits52]
  split <;> simp

theorem digits52_lt (v : Nat) : ∀ d ∈ digits52 v, d < 52 := by
  induction v using digits52.induct with
  | case1 v h =>
    rw [digits52, dif_pos h]
    intro d hd
    simp only [List.mem_singleton] at hd
    subst hd
    exact Nat.mod_lt _ (by norm_num)
  | case2 v h ih =>
    rw [digits52, dif_neg h]
    intro d hd
    rcases List.mem_cons.mp hd with h1 | h2
    · subst h1; exact Nat.mod_lt _ (by norm_num)
    · exact ih d h2

theorem ofDigits52_digits52 (v : Nat) : ofDigits52 (digits52 v) = v := by
  induction v using digits52.induct with
  | case1 v h =>
    rw [digits52, dif_pos h]
    have hv : v < 52 := (Nat.div_eq_zero_iff (by norm_num)).mp h
    simp [ofDigits52, Nat.mod_eq_of_lt hv]
  | case2 v h ih =>
    rw [digits52, dif_neg h]
    simp [ofDigits52, ih, Nat.mod_add_div]

theorem digits52_injective : Function.Injective digits52 := by
  intro a b hab
  rw [← ofDigits52_digits52 a, ← ofDigits52_digits52 b, hab]

theorem getNameAux_eq_map (v : Nat) :
    getNameAux v = (digits52 v).map fun d => ALPHABET.getD d 'a' := by
  induction v using digits52.induct with
  | case1 v h =>
    rw [digits52, dif_pos h, getNameAux]
    simp only [ALPHABET_length, dif_pos h, List.map_cons, List.map_nil]
  | case2 v h ih =>
    rw [digits52, dif_neg h, getNameAux]
    simp only [ALPHABET_length, dif_neg h, List.map_cons, ih]

theorem getD_ALPHABET_inj {d e : Nat} (hd : d < 52) (he : e < 52)
    (h : ALPHABET.getD d 'a' = ALPHABET.getD e 'a') : d = e := by
  have key : ∀ d2 e2 : Fin 52,
      ALPHABET.getD d2.val 'a' = ALPHABET.getD e2.val 'a' → d2 = e2 := by decide
  exact congrArg Fin.val (key ⟨d, hd⟩ ⟨e, he⟩ h)

theorem map_getD_ALPHABET_inj :
    ∀ {l1 l2 : List Nat}, (∀ d ∈ l1, d < 52) → (∀ d ∈ l2, d < 52) →
      l1.map (fun d => ALPHABET.getD d 'a') = l2.map (fun d => ALPHABET.getD d 'a') →
      l1 = l2
  | [], [], _, _, _ => rfl
  | [], _ :: _, _, _, h => by simp at h
  | _ :: _, [], _, _, h => by simp at h
  | d :: l1, e :: l2, h1, h2, h => by
    simp only [List.map_cons, List.cons.injEq] at h
    have hde := getD_ALPHABET_inj (h1 d (by simp)) (h2 e (by simp)) h.1
    have htl := map_getD_ALPHABET_inj (fun x hx => h1 x (by simp [hx]))
      (fun x hx => h2 x (by simp [hx])) h.2
    rw [hde, htl]

theorem get_name_injective : Function.Injective get_name := by
  intro a b hab
  have h2 : (getNameAux a).reverse = (getNameAux b).reverse :=
    congrArg String.data hab
  have h3 : getNameAux a = getNameAux b := List.reverse_injective h2
  rw [getNameAux_eq_map, getNameAux_eq_map] at h3
  exact digits52_injective
    (map_getD_ALPHABET_inj (digits52_lt a) (digits52_lt b) h3)

theorem ofDigits52_pos :
    ∀ {l : List Nat}, l ≠ [] → l.getLast? ≠ some 0 → 0 < ofDigits52 l
  | [], h, _ => absurd rfl h
  | [d], _, h2 => by
    simp only [List.getLast?_singleton, ne_eq, Option.some.injEq] at h2
    simp only [ofDigits52, Nat.mul_zero, Nat.add_zero]
    exact Nat.pos_of_ne_zero h2
  | d :: e :: rest, _, h2 => by
    have htail : (e :: rest).getLast? ≠ some 0 := by
      rwa [List.getLast?_cons_cons] at h2
    have hpos := @ofDigits52_pos (e :: rest) (by simp) htail
    simp only [ofDigits52] at hpos ⊢
    omega

theorem digits52_getLast?_ne_zero (v : Nat) (hv : v ≠ 0) :
    (digits52 v).getLast? ≠ some 0 := by
  induction v using digits52.induct with
  | case1 v h =>
    intro hv2
    rw [digits52, dif_pos h] at hv2
    have hvlt : v < 52 := (Nat.div_eq_zero_iff (by norm_num)).mp h
    simp only [List.getLast?_singleton, Option.some.injEq] at hv2
    exact hv (by rwa [Nat.mod_eq_of_lt hvlt] at hv2)
  | case2 v h ih =>
    rw [digits52, dif_neg h]
    obtain ⟨a, t, htl⟩ := List.exists_cons_of_ne_nil (digits52_ne_nil (v / 52))
    rw [htl, List.getLast?_cons_cons, ← htl]
    exact ih h

theorem digits52_ofDigits52 :
    ∀ {l : List Nat}, (∀ d ∈ l, d < 52) →
      (l.getLast? ≠ some 0 ∨ l.length = 1) → l ≠ [] →
      digits52 (ofDigits52 l) = l
  | [], _, _, h => absurd rfl h
  | [d], hlt, _, _ => by
    have hd : d < 52 := hlt d (by simp)
    have hdiv : d / 52 = 0 := (Nat.div_eq_zero_iff (by norm_num)).mpr hd
    simp only [ofDigits52, Nat.mul_zero, Nat.add_zero]
    rw [digits52, dif_pos hdiv, Nat.mod_eq_of_lt hd]
  | d :: e :: rest, hlt, hlast, _ => by
    have hd : d < 52 := hlt d (by simp)
    have hlast2 : (e :: rest).getLast? ≠ some 0 := by
      rcases hlast with h | h
      · rwa [List.getLast?_cons_cons] at h
      · simp at h
    have hM : 0 < ofDigits52 (e :: rest) := ofDigits52_pos (by simp) hlast2
    have hdiv : (d + 52 * ofDigits52 (e :: rest)) / 52 = ofDigits52 (e :: rest) := by
      rw [Nat.add_mul_div_left _ _ (by norm_num : (0:Nat) < 52),
        Nat.div_eq_of_lt hd, Nat.zero_add]
    have hmod : (d + 52 * ofDigits52 (e :: rest)) % 52 = d := by
      rw [Nat.add_mul_mod_self_left, Nat.mod_eq_of_lt hd]
    have hrec := @digits52_ofDigits52 (e :: rest)
      (fun x hx => hlt x (by simp [hx])) (Or.inl hlast2) (by simp)
    show digits52 (d + 52 * ofDigits52 (e :: rest)) = _
    rw [digits52, dif_neg (by rw [hdiv]; omega), hdiv, hmod, hrec]

theorem digits52_of_lt {v : Nat} (h : v < 52) : digits52 v = [v % 52] := by
  rw [digits52, dif_pos ((Nat.div_eq_zero_iff (by norm_num)).mpr h)]

theorem digits52_of_ge {v : Nat} (h : 52 ≤ v) :
    digits52 v = v % 52 :: digits52 (v / 52) := by
  rw [digits52, dif_neg]
  intro hdiv
  have := (Nat.div_eq_zero_iff (by norm_num : (0:Nat) < 52)).mp hdiv
  omega

theorem digits52_length_mono :
    ∀ (j i : Nat), i ≤ j → (digits52 i).length ≤ (digits52 j).length := by
  intro j
  induction j using Nat.strong_induction_on with
  | _ j ih =>
    intro i hij
    by_cases hj : j < 52
    · rw [digits52_of_lt (lt_of_le_of_lt hij hj), digits52_of_lt hj]
      simp
    · push_neg at hj
      by_cases hi : i < 52
      · rw [digits52_of_lt hi, digits52_of_ge hj]
        simp only [List.length_cons, List.length_nil]
        omega
      · push_neg at hi
        rw [digits52_of_ge hi, digits52_of_ge hj]
        simp only [List.length_cons, Nat.succ_le_succ_iff]
        exact ih (j / 52) (Nat.div_lt_self (by omega) (by norm_num))
          (i / 52) (Nat.div_le_div_right hij)

theorem get_name_length (v : Nat) :
    (get_name v).length = (digits52 v).length := by
  show (getNameAux v).reverse.length = _
  rw [List.length_reverse, getNameAux_eq_map, List.length_map]

/-! ## Facts about the name→alias mapping -/

theorem new_map_fst (names : List String) :
    (NameMapper.new names).map Prod.fst = List.insertionSort (· ≤ ·) names := by
  simp only [NameMapper.new, List.map_map]
  have : (Prod.fst ∘ fun p : Nat × String => (p.2, get_name p.1)) = Prod.snd := rfl
  rw [this, List.enum_map_snd]

theorem new_map_snd (names : List String) :
    (NameMapper.new names).map Prod.snd =
      (List.range (List.insertionSort (· ≤ ·) names).length).map get_name := by
  simp only [NameMapper.new, List.map_map]
  have h1 : (Prod.snd ∘ fun p : Nat × String => (p.2, get_name p.1)) =
      (get_name ∘ Prod.fst) := rfl
  rw [h1, ← List.map_map, List.enum_map_fst]

theorem new_length (names : List String) :
    (NameMapper.new names).length = names.length := by
  simp only [NameMapper.new, List.length_map, List.enum_length]
  exact (List.perm_insertionSort _ names).length_eq

theorem lookup_isSome_iff (l : List (String × String)) (a : String) :
    (l.lookup a).isSome ↔ a ∈ l.map Prod.fst := by
  induction l with
  | nil => simp [List.lookup]
  | cons p tl ih =>
    obtain ⟨k, v⟩ := p
    by_cases hak : a = k
    · subst hak; simp [List.lookup]
    · have hbeq : (a == k) = false := beq_false_of_ne hak
      simp [List.lookup, hbeq, hak, ih]

theorem new_lookup_isSome {names : List String} {a : String} (h : a ∈ names) :
    ((NameMapper.new names).lookup a).isSome := by
  rw [lookup_isSome_iff, new_map_fst]
  exact (List.perm_insertionSort _ names).mem_iff.mpr h

theorem new_eq_of_perm {names1 names2 : List String} (hp : names1.Perm names2) :
    NameMapper.new names1 = NameMapper.new names2 := by
  have hsort : List.insertionSort (· ≤ ·) names1 =
      List.insertionSort (· ≤ ·) names2 :=
    List.eq_of_perm_of_sorted
      ((List.perm_insertionSort _ _).trans
        (hp.trans (List.perm_insertionSort _ _).symm))
      (List.sorted_insertionSort _ _) (List.sorted_insertionSort _ _)
  simp only [NameMapper.new, hsort]

/-! ## Claims about the alias assigner -/

/-- C1: for a declaration with `n` distinct names, the mapping produced by
`NameMapper::new` is a bijection: it has exactly `n` entries, every input
name is a key exactly once (the keys are a permutation of the names and
are duplicate-free), and no two entries share an alias (the value list is
duplicate-free, because `get_name` is injective and indices come from a
deduplicated enumeration). -/
theorem C1_mapping_bijection (names : List String) (hnd : names.Nodup) :
    (NameMapper.new names).length = names.length ∧
    ((NameMapper.new names).map Prod.fst).Perm names ∧
    ((NameMapper.new names).map Prod.fst).Nodup ∧
    ((NameMapper.new names).map Prod.snd).Nodup := by
  have hperm : (List.insertionSort (· ≤ ·) names).Perm names :=
    List.perm_insertionSort _ _
  refine ⟨new_length names, ?_, ?_, ?_⟩
  · rw [new_map_fst]; exact hperm
  · rw [new_map_fst]; exact hperm.nodup_iff.mpr hnd
  · rw [new_map_snd]
    exact (List.nodup_range _).map get_name_injective

theorem C1_mapping_bijection_witness :
    (NameMapper.new ["user_id", "event_id"]).length = 2 ∧
    ((NameMapper.new ["user_id", "event_id"]).map Prod.fst).Perm
      ["user_id", "event_id"] ∧
    ((NameMapper.new ["user_id", "event_id"]).map Prod.snd).Nodup := by
  have h := C1_mapping_bijection ["user_id", "event_id"] (by decide)
  exact ⟨h.1, h.2.1, h.2.2.2⟩

/-- C2: the name→alias mapping is a pure function of the set of distinct
names alone: any two declarations whose collected name sets are equal (as
sets, i.e. the deduplicated name lists are permutations of one another —
e.g. the same declaration with fields reordered) produce equal mappings,
because assignment is driven by the sorted order of the names. -/
theorem C2_mapping_determinism (it1 it2 : Item)
    (hp : (collectedNames it1).Perm (collectedNames it2)) :
    NameMapper.new (collectedNames it1) = NameMapper.new (collectedNames it2) :=
  new_eq_of_perm hp

theorem C2_mapping_determinism_witness :
    NameMapper.new (collectedNames
        (.structItem "S" [] [⟨[], some "event_id", "i32"⟩, ⟨[], some "user_id", "u64"⟩])) =
      NameMapper.new (collectedNames
        (.structItem "S" [] [⟨[], some "user_id", "u64"⟩, ⟨[], some "event_id", "i32"⟩])) :=
  C2_mapping_determinism
    (.structItem "S" [] [⟨[], some "event_id", "i32"⟩, ⟨[], some "user_id", "u64"⟩])
    (.structItem "S" [] [⟨[], some "user_id", "u64"⟩, ⟨[], some "event_id", "i32"⟩])
    (by decide)

/-- C4: the alias-encoding function maps index 52 to the two-symbol alias
made of `ALPHABET[1]` followed by `ALPHABET[0]`, i.e. the string `"ba"`. -/
theorem C4_index52_ba :
    get_name 52 = "ba" ∧
    (get_name 52).data = [ALPHABET.getD 1 'a', ALPHABET.getD 0 'a'] := by
  constructor <;> decide

/-- C5: every alias is non-empty, alias length is non-decreasing in the
index, indices 0–51 get 1-symbol aliases, and indices 52–2703 get
2-symbol aliases; in particular index 0 yields a one-symbol alias. -/
theorem C5_alias_length_monotone :
    (∀ i : Nat, 1 ≤ (get_name i).length) ∧
    (∀ i j : Nat, i ≤ j → (get_name i).length ≤ (get_name j).length) ∧
    (∀ i : Nat, i < 52 → (get_name i).length = 1) ∧
    (∀ i : Nat, 52 ≤ i → i ≤ 2703 → (get_name i).length = 2) := by
  have hlen1 : ∀ i : Nat, i < 52 → (get_name i).length = 1 := by
    intro i hi
    rw [get_name_length, digits52_of_lt hi, List.length_singleton]
  refine ⟨?_, ?_, hlen1, ?_⟩
  · intro i
    rw [get_name_length]
    have := digits52_ne_nil i
    cases h : digits52 i with
    | nil => exact absurd h this
    | cons a t => simp
  · intro i j hij
    rw [get_name_length, get_name_length]
    exact digits52_length_mono j i hij
  · intro i h52 h2703
    rw [get_name_length, digits52_of_ge h52]
    have hq1 : 1 ≤ i / 52 := (Nat.one_le_div_iff (by norm_num)).mpr h52
    have hq2 : i / 52 < 52 := by omega
    rw [digits52_of_lt hq2]
    simp

theorem C5_alias_length_monotone_witness :
    1 ≤ (get_name 0).length ∧
    (get_name 3).length ≤ (get_name 53).length ∧
    (get_name 51).length = 1 ∧
    (get_name 52).length = 2 :=
  ⟨C5_alias_length_monotone.1 0,
   C5_alias_length_monotone.2.1 3 53 (by decide),
   C5_alias_length_monotone.2.2.1 51 (by decide),
   C5_alias_length_monotone.2.2.2 52 (by decide) (by decide)⟩

/-! ## The numeral system realized by `get_name` -/

theorem getD_ALPHABET_mem {d : Nat} (h : d < 52) :
    ALPHABET.getD d 'a' ∈ ALPHABET := by
  rw [List.getD_eq_getElem?_getD,
    List.getElem?_eq_getElem (by rw [ALPHABET_length]; exact h)]
  exact List.getElem_mem _

/-- C3 counterexample: `get_name` is not a bijection onto all non-empty
strings over the alphabet — it realizes the standard base-52 positional
system with `a` as the zero digit, so the two-symbol string `"aa"` (a
leading zero) is never produced by any index. -/
theorem C3_counterexample_aa : ¬ ∃ v : Nat, get_name v = "aa" := by
  rintro ⟨v, hv⟩
  have h2 : (getNameAux v).reverse = ['a', 'a'] := congrArg String.data hv
  have h3 : getNameAux v = ['a', 'a'] := by
    have h := congrArg List.reverse h2
    simpa using h
  rw [getNameAux_eq_map] at h3
  have hmap2 : ([0, 0] : List Nat).map (fun d => ALPHABET.getD d 'a') =
      ['a', 'a'] := by decide
  have h4 : digits52 v = [0, 0] :=
    map_getD_ALPHABET_inj (digits52_lt v) (by norm_num)
      (h3.trans hmap2.symm)
  have h5 := ofDigits52_digits52 v
  rw [h4] at h5
  simp only [ofDigits52, Nat.mul_zero, Nat.add_zero, Nat.zero_add] at h5
  rw [← h5] at h4
  have h0 : digits52 0 = [0] := by decide
  simp [h0] at h4

theorem get_name_data (v : Nat) :
    (get_name v).data =
      ((digits52 v).map fun d => ALPHABET.getD d 'a').reverse := by
  show (getNameAux v).reverse = _
  rw [getNameAux_eq_map]

/-- C3 amended: the alias-encoding function realizes the standard
(non-bijective) base-52 positional system over the 52-symbol alphabet,
with `ALPHABET[0] = 'a'` serving as the zero digit: it is injective over
non-negative indices, every index yields a non-empty string over the
alphabet (most significant digit first) whose leading symbol is not the
zero symbol unless the string is a single symbol, and its image is
exactly that set of strings — not the set of all non-empty strings over
the alphabet. -/
theorem C3_amended_standard_base52 :
    Function.Injective get_name ∧
    (∀ v : Nat, isAliasString (get_name v)) ∧
    (∀ s : String, isAliasString s → ∃ v : Nat, get_name v = s) := by
  refine ⟨get_name_injective, ?_, ?_⟩
  · intro v
    refine ⟨?_, ?_, ?_⟩
    · rw [get_name_data]
      simp only [ne_eq, List.reverse_eq_nil_iff, List.map_eq_nil_iff]
      exact digits52_ne_nil v
    · intro c hc
      rw [get_name_data, List.mem_reverse] at hc
      obtain ⟨d, hd, rfl⟩ := List.mem_map.mp hc
      exact getD_ALPHABET_mem (digits52_lt v d hd)
    · by_cases hv : v < 52
      · left
        rw [get_name_data, digits52_of_lt hv]
        simp
      · right
        push_neg at hv
        rw [get_name_data, List.head?_reverse, List.getLast?_map]
        intro hbad
        obtain ⟨d, hd1, hd2⟩ := Option.map_eq_some'.mp hbad
        have hdmem : d ∈ digits52 v :=
          List.mem_of_mem_getLast? (by rw [hd1]; rfl)
        have hd0 : d = 0 :=
          getD_ALPHABET_inj (digits52_lt v d hdmem) (by norm_num)
            (by rw [hd2]; rfl)
        exact digits52_getLast?_ne_zero v (by omega) (by rw [hd1, hd0])
  · rintro ⟨data⟩ ⟨hne, hmem, hhead⟩
    have hlt : ∀ d ∈ data.reverse.map fun c => ALPHABET.indexOf c, d < 52 := by
      intro d hd
      obtain ⟨c, hc, rfl⟩ := List.mem_map.mp hd
      have hcA : c ∈ ALPHABET := hmem c (List.mem_reverse.mp hc)
      have h := List.indexOf_lt_length.mpr hcA
      rwa [ALPHABET_length] at h
    have hne2 : data.reverse.map (fun c => ALPHABET.indexOf c) ≠ [] := by
      simp only [ne_eq, List.map_eq_nil_iff, List.reverse_eq_nil_iff]
      exact hne
    have hlast : (data.reverse.map fun c => ALPHABET.indexOf c).getLast? ≠ some 0 ∨
        (data.reverse.map fun c => ALPHABET.indexOf c).length = 1 := by
      rcases hhead with hlen | hh
      · right; simpa using hlen
      · left
        rw [List.getLast?_map, List.getLast?_reverse]
        intro hbad
        obtain ⟨c, hc1, hc2⟩ := Option.map_eq_some'.mp hbad
        have hcA : c ∈ ALPHABET := hmem c (List.mem_of_mem_head? (by rw [hc1]; rfl))
        have hidx : ALPHABET.indexOf c < ALPHABET.length :=
          List.indexOf_lt_length.mpr hcA
        have hca : c = 'a' := by
          have hg := @List.getElem_indexOf _ _ c ALPHABET hidx
          have hg2 : ALPHABET[(0 : Nat)]? = some c := by
            rw [← hc2, List.getElem?_eq_getElem hidx, hg]
          have hg3 : some 'a' = some c := hg2
          exact (Option.some.inj hg3).symm
        exact hh (by rw [hc1, hca])
    have hd := digits52_ofDigits52 hlt hlast hne2
    refine ⟨ofDigits52 (data.reverse.map fun c => ALPHABET.indexOf c), ?_⟩
    have hchars :
        ((data.reverse.map fun c => ALPHABET.indexOf c).map
          fun d => ALPHABET.getD d 'a').reverse = data := by
      rw [List.map_map]
      have hcongr : ∀ c ∈ data.reverse,
          ((fun d => ALPHABET.getD d 'a') ∘ fun c => ALPHABET.indexOf c) c = id c := by
        intro c hc
        have hcA : c ∈ ALPHABET := hmem c (List.mem_reverse.mp hc)
        have hidx : ALPHABET.indexOf c < ALPHABET.length :=
          List.indexOf_lt_length.mpr hcA
        simp only [Function.comp_apply, id_eq]
        rw [List.getD_eq_getElem?_getD, List.getElem?_eq_getElem hidx]
        exact congrArg (·.getD 'a') (congrArg some (List.getElem_indexOf hidx))
      rw [List.map_congr_left hcongr, List.map_id, List.reverse_reverse]
    have : (get_name (ofDigits52 (data.reverse.map fun c => ALPHABET.indexOf c))).data
        = data := by
      rw [get_name_data, hd, hchars]
    exact congrArg String.mk this

theorem C3_amended_standard_base52_witness :
    get_name 52 ≠ get_name 53 ∧ isAliasString (get_name 52) ∧
    ∃ v : Nat, get_name v = "ZZ" :=
  ⟨fun h => by simpa using C3_amended_standard_base52.1 h,
   C3_amended_standard_base52.2.1 52,
   C3_amended_standard_base52.2.2 "ZZ" ⟨by decide, by decide, by decide⟩⟩

/-! ## Claims about the name collector -/

theorem mem_visit_field {f : Field} {s : String} :
    s ∈ NameCollector.visit_field f ↔ f.ident = some s := by
  cases h : f.ident <;> simp [NameCollector.visit_field, h, eq_comm]

theorem mem_visit_variant {v : Variant} {s : String} :
    s ∈ NameCollector.visit_variant v ↔
      v.ident = s ∨ ∃ f ∈ v.fields, f.ident = some s := by
  simp [NameCollector.visit_variant, List.mem_flatMap, mem_visit_field, eq_comm]

theorem mem_visit_item (it : Item) (s : String) :
    s ∈ NameCollector.visit_item it ↔
      isFieldNameOf s it ∨ isVariantNameOf s it := by
  cases it with
  | structItem ident attrs fields =>
    simp [NameCollector.visit_item, List.mem_flatMap, mem_visit_field,
      isFieldNameOf, isVariantNameOf]
  | enumItem ident attrs variants =>
    simp only [NameCollector.visit_item, List.mem_flatMap, mem_visit_variant,
      isFieldNameOf, isVariantNameOf]
    constructor
    · rintro ⟨v, hv, h | h⟩
      · exact Or.inr ⟨v, hv, h⟩
      · exact Or.inl ⟨v, hv, h⟩
    · rintro (⟨v, hv, h⟩ | ⟨v, hv, h⟩)
      · exact ⟨v, hv, Or.inr h⟩
      · exact ⟨v, hv, Or.inl h⟩

theorem mem_collectedNames (it : Item) (s : String) :
    s ∈ collectedNames it ↔ isFieldNameOf s it ∨ isVariantNameOf s it := by
  rw [collectedNames, List.mem_dedup]
  exact mem_visit_item it s

/-- C6: the collector returns exactly the set of distinct names of (a)
every field that carries a name, including fields nested inside enum
variants, and (b) every variant identifier; anonymous fields contribute
nothing, duplicates collapse to one entry (the result is duplicate-free),
and a declaration with no named fields or variants yields the empty
set. -/
theorem C6_collector_exact (it : Item) :
    (∀ s : String, s ∈ collectedNames it ↔
      isFieldNameOf s it ∨ isVariantNameOf s it) ∧
    (collectedNames it).Nodup ∧
    ((∀ s : String, ¬ isFieldNameOf s it ∧ ¬ isVariantNameOf s it) →
      collectedNames it = []) := by
  refine ⟨mem_collectedNames it, List.nodup_dedup _, ?_⟩
  intro hnone
  rw [List.eq_nil_iff_forall_not_mem]
  intro s hs
  rcases (mem_collectedNames it s).mp hs with h | h
  · exact (hnone s).1 h
  · exact (hnone s).2 h

theorem C6_collector_exact_witness :
    ("id" ∈ collectedNames
        (.enumItem "E" []
          [⟨[], "A", [⟨[], some "id", "i32"⟩], none⟩,
           ⟨[], "B", [⟨[], some "id", "u64"⟩], none⟩]) ↔
      isFieldNameOf "id"
          (.enumItem "E" []
            [⟨[], "A", [⟨[], some "id", "i32"⟩], none⟩,
             ⟨[], "B", [⟨[], some "id", "u64"⟩], none⟩]) ∨
        isVariantNameOf "id"
          (.enumItem "E" []
            [⟨[], "A", [⟨[], some "id", "i32"⟩], none⟩,
             ⟨[], "B", [⟨[], some "id", "u64"⟩], none⟩])) ∧
    collectedNames (.structItem "Unit" [] []) = [] :=
  ⟨(C6_collector_exact _).1 "id",
   (C6_collector_exact (.structItem "Unit" [] [])).2.2
    (fun s => ⟨fun h => by simp [isFieldNameOf] at h,
               fun h => by simp [isVariantNameOf] at h⟩)⟩

/-! ## The rewriter with the real (always-succeeding) attribute parser -/

theorem fold_field_synOk {m : List (String × String)} {f : Field}
    (h : ∀ n, f.ident = some n → ((m.lookup n).isSome)) :
    NameMapper.fold_field m synParseRename f =
      some (rewriteSpecField (fun n => m.lookup n) f) := by
  cases hident : f.ident with
  | none => simp [NameMapper.fold_field, rewriteSpecField, hident]
  | some n =>
    obtain ⟨a, ha⟩ := Option.isSome_iff_exists.mp (h n hident)
    simp [NameMapper.fold_field, rewriteSpecField, hident, ha, synParseRename]

theorem fold_fields_synOk {m : List (String × String)} {fs : List Field}
    (h : ∀ f ∈ fs, ∀ n, f.ident = some n → ((m.lookup n).isSome)) :
    NameMapper.fold_fields m synParseRename fs =
      some (fs.map (rewriteSpecField (fun n => m.lookup n))) := by
  induction fs with
  | nil => rfl
  | cons f fs ih =>
    rw [NameMapper.fold_fields,
      fold_field_synOk (h f (by simp)),
      ih (fun g hg n hn => h g (by simp [hg]) n hn)]
    rfl

theorem fold_variant_synOk {m : List (String × String)} {v : Variant}
    (hv : ((m.lookup v.ident).isSome))
    (hf : ∀ f ∈ v.fields, ∀ n, f.ident = some n → ((m.lookup n).isSome)) :
    NameMapper.fold_variant m synParseRename v =
      some (rewriteSpecVariant (fun n => m.lookup n) v) := by
  obtain ⟨a, ha⟩ := Option.isSome_iff_exists.mp hv
  simp only [NameMapper.fold_variant, ha, synParseRename,
    List.getLast?_singleton]
  rw [fold_fields_synOk hf]
  simp [rewriteSpecVariant, ha]

theorem fold_variants_synOk {m : List (String × String)} {vs : List Variant}
    (h : ∀ v ∈ vs, ((m.lookup v.ident).isSome) ∧
      ∀ f ∈ v.fields, ∀ n, f.ident = some n → ((m.lookup n).isSome)) :
    NameMapper.fold_variants m synParseRename vs =
      some (vs.map (rewriteSpecVariant (fun n => m.lookup n))) := by
  induction vs with
  | nil => rfl
  | cons v vs ih =>
    rw [NameMapper.fold_variants,
      fold_variant_synOk (h v (by simp)).1 (h v (by simp)).2,
      ih (fun w hw => h w (by simp [hw]))]
    rfl

theorem fold_item_synOk {m : List (String × String)} {it : Item}
    (h : ∀ n, isFieldNameOf n it ∨ isVariantNameOf n it →
      ((m.lookup n).isSome)) :
    NameMapper.fold_item m synParseRename it =
      some (rewriteSpecItem (fun n => m.lookup n) it) := by
  cases it with
  | structItem ident attrs fields =>
    rw [NameMapper.fold_item,
      fold_fields_synOk (fun f hf n hn => h n (Or.inl ⟨f, hf, hn⟩))]
    rfl
  | enumItem ident attrs variants =>
    rw [NameMapper.fold_item,
      fold_variants_synOk (fun v hv =>
        ⟨h v.ident (Or.inr ⟨v, hv, rfl⟩),
         fun f hf n hn => h n (Or.inl ⟨v, hv, f, hf, hn⟩)⟩)]
    rfl

theorem compact_lookup_isSome {it : Item} {n : String}
    (hn : isFieldNameOf n it ∨ isVariantNameOf n it) :
    ((aliasOf it n).isSome) :=
  new_lookup_isSome ((mem_collectedNames it n).mpr hn)

theorem compact_eq (it : Item) :
    compact it = some (rewriteSpecItem (aliasOf it) it) :=
  fold_item_synOk (fun _ hn => compact_lookup_isSome hn)

/-- C7: the rewriter changes only metadata: its output is exactly the
input declaration in which every named field and every variant has one
rename directive appended after its existing attributes (which are kept
unchanged), unnamed fields are passed through untouched, and all
identifiers, payloads (types/discriminants), ordering and nesting are
identical to the input; moreover the alias lookup driving the appended
directive succeeds for every named field and variant of the
declaration. -/
theorem C7_rewriter_additive (it : Item) :
    compact it = some (rewriteSpecItem (aliasOf it) it) ∧
    (∀ n : String, isFieldNameOf n it ∨ isVariantNameOf n it →
      ((aliasOf it n).isSome)) :=
  ⟨compact_eq it, fun _ hn => compact_lookup_isSome hn⟩

theorem C7_rewriter_additive_witness :
    compact (.structItem "S" []
        [⟨[Attribute.other "serde(skip)"], some "x", "i32"⟩,
         ⟨[], none, "u8"⟩]) =
      some (rewriteSpecItem
        (aliasOf (.structItem "S" []
          [⟨[Attribute.other "serde(skip)"], some "x", "i32"⟩,
           ⟨[], none, "u8"⟩]))
        (.structItem "S" []
          [⟨[Attribute.other "serde(skip)"], some "x", "i32"⟩,
           ⟨[], none, "u8"⟩])) ∧
    ((aliasOf (.structItem "S" []
        [⟨[Attribute.other "serde(skip)"], some "x", "i32"⟩,
         ⟨[], none, "u8"⟩]) "x").isSome) :=
  ⟨(C7_rewriter_additive _).1,
   (C7_rewriter_additive
      (.structItem "S" []
        [⟨[Attribute.other "serde(skip)"], some "x", "i32"⟩,
         ⟨[], none, "u8"⟩])).2 "x"
    (Or.inl ⟨⟨[Attribute.other "serde(skip)"], some "x", "i32"⟩, by simp, rfl⟩)⟩

/-! ## The rewriter when attribute construction fails -/

theorem fold_field_failParse {m : List (String × String)} {f : Field}
    (h : ∀ n, f.ident = some n → ((m.lookup n).isSome)) :
    NameMapper.fold_field m (fun _ => none) f = some f := by
  cases hident : f.ident with
  | none => simp [NameMapper.fold_field, hident]
  | some n =>
    obtain ⟨a, ha⟩ := Option.isSome_iff_exists.mp (h n hident)
    simp [NameMapper.fold_field, hident, ha]

theorem fold_fields_failParse {m : List (String × String)} {fs : List Field}
    (h : ∀ f ∈ fs, ∀ n, f.ident = some n → ((m.lookup n).isSome)) :
    NameMapper.fold_fields m (fun _ => none) fs = some fs := by
  induction fs with
  | nil => rfl
  | cons f fs ih =>
    rw [NameMapper.fold_fields, fold_field_failParse (h f (by simp)),
      ih (fun g hg n hn => h g (by simp [hg]) n hn)]

theorem fold_variant_failParse {m : List (String × String)} {v : Variant}
    (hv : ((m.lookup v.ident).isSome))
    (hf : ∀ f ∈ v.fields, ∀ n, f.ident = some n → ((m.lookup n).isSome)) :
    NameMapper.fold_variant m (fun _ => none) v = some v := by
  obtain ⟨a, ha⟩ := Option.isSome_iff_exists.mp hv
  simp only [NameMapper.fold_variant, ha]
  rw [fold_fields_failParse hf]

theorem fold_variants_failParse {m : List (String × String)} {vs : List Variant}
    (h : ∀ v ∈ vs, ((m.lookup v.ident).isSome) ∧
      ∀ f ∈ v.fields, ∀ n, f.ident = some n → ((m.lookup n).isSome)) :
    NameMapper.fold_variants m (fun _ => none) vs = some vs := by
  induction vs with
  | nil => rfl
  | cons v vs ih =>
    rw [NameMapper.fold_variants,
      fold_variant_failParse (h v (by simp)).1 (h v (by simp)).2,
      ih (fun w hw => h w (by simp [hw]))]

/-- C8 counterexample: when constructing the rename-directive metadata
fails (the attribute parser returns an error for every fragment), the
transform of a struct whose single named field is in the mapping does not
fail: it succeeds and emits the declaration with the field silently
lacking its rename directive — contradicting both halves of the claim at
this concrete input. -/
theorem C8_counterexample_silent :
    NameMapper.fold_item [("x", "a")] (fun _ => none)
        (.structItem "S" [] [⟨[], some "x", "i32"⟩]) =
      some (.structItem "S" [] [⟨[], some "x", "i32"⟩]) ∧
    NameMapper.fold_item [("x", "a")] (fun _ => none)
        (.structItem "S" [] [⟨[], some "x", "i32"⟩]) ≠ none := by
  exact ⟨rfl, fun hcontra => Option.noConfusion hcontra⟩

/-- C8 amended: if constructing the rename-directive metadata fails for
the fields and variants of a declaration, the rewriter does not fail: the
`if let Ok` silently skips attaching the directive and the transform
succeeds, returning every node unchanged — so a named field can lack its
rename directive in an emitted declaration (the transform aborts only on
a failed name lookup, not on a failed attribute construction). -/
theorem C8_amended_silent_skip (it : Item) :
    NameMapper.fold_item (NameMapper.new (collectedNames it))
      (fun _ => none) it = some it := by
  cases it with
  | structItem ident attrs fields =>
    rw [NameMapper.fold_item, fold_fields_failParse]
    intro f hf n hn
    exact @compact_lookup_isSome (.structItem ident attrs fields) _
      (Or.inl ⟨f, hf, hn⟩)
  | enumItem ident attrs variants =>
    rw [NameMapper.fold_item, fold_variants_failParse]
    intro v hv
    exact ⟨@compact_lookup_isSome (.enumItem ident attrs variants) _
        (Or.inr ⟨v, hv, rfl⟩),
      fun f hf n hn =>
        @compact_lookup_isSome (.enumItem ident attrs variants) _
          (Or.inl ⟨v, hv, f, hf, hn⟩)⟩

/-! ## Panic propagation for missing names -/

theorem fold_field_none {m : List (String × String)}
    {parse : String → Option (List Attribute)} {f : Field} {n : String}
    (hn : f.ident = some n) (h : m.lookup n = none) :
    NameMapper.fold_field m parse f = none := by
  simp [NameMapper.fold_field, hn, h]

theorem fold_fields_none {m : List (String × String)}
    {parse : String → Option (List Attribute)} {fs : List Field} {f : Field}
    (hf : f ∈ fs) (h : NameMapper.fold_field m parse f = none) :
    NameMapper.fold_fields m parse fs = none := by
  induction fs with
  | nil => simp at hf
  | cons g gs ih =>
    rw [NameMapper.fold_fields]
    rcases List.mem_cons.mp hf with rfl | hmem
    · rw [h]
    · rw [ih hmem]
      cases NameMapper.fold_field m parse g <;> rfl

theorem fold_variant_none_of_field {m : List (String × String)}
    {parse : String → Option (List Attribute)} {v : Variant} {f : Field}
    (hf : f ∈ v.fields) (h : NameMapper.fold_field m parse f = none) :
    NameMapper.fold_variant m parse v = none := by
  rw [NameMapper.fold_variant]
  cases hl : m.lookup v.ident with
  | none => rfl
  | some rename =>
    have hfs : NameMapper.fold_fields m parse v.fields = none :=
      fold_fields_none hf h
    cases hp : parse rename with
    | none => simp [hp, hfs]
    | some attrs =>
      cases hlast : attrs.getLast? with
      | none => simp [hp, hlast, hfs]
      | some attr => simp [hp, hlast, hfs]

theorem fold_variant_none_of_ident {m : List (String × String)}
    {parse : String → Option (List Attribute)} {v : Variant}
    (h : m.lookup v.ident = none) :
    NameMapper.fold_variant m parse v = none := by
  rw [NameMapper.fold_variant, h]

theorem fold_variants_none {m : List (String × String)}
    {parse : String → Option (List Attribute)} {vs : List Variant} {v : Variant}
    (hv : v ∈ vs) (h : NameMapper.fold_variant m parse v = none) :
    NameMapper.fold_variants m parse vs = none := by
  induction vs with
  | nil => simp at hv
  | cons w ws ih =>
    rw [NameMapper.fold_variants]
    rcases List.mem_cons.mp hv with rfl | hmem
    · rw [h]
    · rw [ih hmem]
      cases NameMapper.fold_variant m parse w <;> rfl

/-- C9: when the mapping is built from the names the collector gathered on
the same declaration, every lookup the rewriter performs succeeds, so the
whole pipeline always returns a rewritten declaration (the fatal
missing-name branch is unreachable); and conversely, for any mapping in
which some visited name is missing, the fold of the declaration aborts
with the panic rather than skipping the node. -/
theorem C9_lookup_always_succeeds :
    (∀ it : Item, ((compact it).isSome)) ∧
    (∀ (m : List (String × String)) (parse : String → Option (List Attribute))
        (it : Item) (n : String),
      isFieldNameOf n it ∨ isVariantNameOf n it → m.lookup n = none →
      NameMapper.fold_item m parse it = none) := by
  constructor
  · intro it
    rw [compact_eq it]
    rfl
  · intro m parse it n hn hnone
    cases it with
    | structItem ident attrs fields =>
      rcases hn with hfn | hvn
      · obtain ⟨f, hf, hfi⟩ := hfn
        rw [NameMapper.fold_item,
          fold_fields_none hf (fold_field_none hfi hnone)]
      · exact absurd hvn (by simp [isVariantNameOf])
    | enumItem ident attrs variants =>
      rcases hn with hfn | hvn
      · obtain ⟨v, hv, f, hf, hfi⟩ := hfn
        rw [NameMapper.fold_item,
          fold_variants_none hv
            (fold_variant_none_of_field hf (fold_field_none hfi hnone))]
      · obtain ⟨v, hv, hvi⟩ := hvn
        rw [NameMapper.fold_item,
          fold_variants_none hv
            (fold_variant_none_of_ident (by rw [hvi]; exact hnone))]

theorem C9_lookup_always_succeeds_witness :
    ((compact (.structItem "S" [] [⟨[], some "x", "i32"⟩])).isSome) ∧
    NameMapper.fold_item [] synParseRename
      (.structItem "S" [] [⟨[], some "x", "i32"⟩]) = none :=
  ⟨C9_lookup_always_succeeds.1 (.structItem "S" [] [⟨[], some "x", "i32"⟩]),
   C9_lookup_always_succeeds.2 [] synParseRename
     (.structItem "S" [] [⟨[], some "x", "i32"⟩]) "x"
     (Or.inl ⟨⟨[], some "x", "i32"⟩, by simp, rfl⟩) rfl⟩

/-! ## Shared namespace of field and variant names -/

theorem rewriteSpecField_ident (al : String → Option String) (f : Field) :
    (rewriteSpecField al f).ident = f.ident := by
  cases hident : f.ident with
  | none => simp [rewriteSpecField, hident]
  | some n => cases hal : al n <;> simp [rewriteSpecField, hident, hal]

/-- C10: field names and variant names share a single namespace: the
collector inserts both kinds into one set and the assigner builds one
mapping over it, so a name that occurs both as a variant identifier and
as a field identifier in the same declaration occupies exactly one entry
of the mapping (its key count among the mapping keys is 1), and in the
rewritten declaration the variant and the field both receive that entry's
single alias. -/
theorem C10_shared_namespace (it : Item) (s : String)
    (hv : isVariantNameOf s it) (hf : isFieldNameOf s it) :
    List.count s ((NameMapper.new (collectedNames it)).map Prod.fst) = 1 ∧
    ∃ a : String, aliasOf it s = some a ∧
      ∃ out : Item, compact it = some out ∧
        (∀ v2 ∈ variantsOf out, v2.ident = s →
          Attribute.serdeRename a ∈ v2.attrs) ∧
        (∀ v2 ∈ variantsOf out, ∀ f2 ∈ v2.fields, f2.ident = some s →
          Attribute.serdeRename a ∈ f2.attrs) := by
  have hmemnames : s ∈ collectedNames it :=
    (mem_collectedNames it s).mpr (Or.inl hf)
  have hperm : (List.insertionSort (· ≤ ·) (collectedNames it)).Perm
      (collectedNames it) := List.perm_insertionSort _ _
  have hkeysnd : ((NameMapper.new (collectedNames it)).map Prod.fst).Nodup := by
    rw [new_map_fst]
    exact hperm.nodup_iff.mpr (List.nodup_dedup _)
  have hmemkeys : s ∈ (NameMapper.new (collectedNames it)).map Prod.fst := by
    rw [new_map_fst]
    exact hperm.mem_iff.mpr hmemnames
  obtain ⟨a, ha⟩ := Option.isSome_iff_exists.mp
    (compact_lookup_isSome (Or.inr hv))
  refine ⟨List.count_eq_one_of_mem hkeysnd hmemkeys, a, ha, ?_⟩
  refine ⟨rewriteSpecItem (aliasOf it) it, compact_eq it, ?_, ?_⟩
  · intro v2 hv2 hid
    cases it with
    | structItem ident attrs fields => simp [rewriteSpecItem, variantsOf] at hv2
    | enumItem ident attrs variants =>
      simp only [rewriteSpecItem, variantsOf, List.mem_map] at hv2
      obtain ⟨v, hvmem, rfl⟩ := hv2
      have hvid : v.ident = s := hid
      rw [rewriteSpecVariant]
      simp only [hvid, ha]
      simp
  · intro v2 hv2 f2 hf2 hid
    cases it with
    | structItem ident attrs fields => simp [rewriteSpecItem, variantsOf] at hv2
    | enumItem ident attrs variants =>
      simp only [rewriteSpecItem, variantsOf, List.mem_map] at hv2
      obtain ⟨v, hvmem, rfl⟩ := hv2
      have hfields : (rewriteSpecVariant
            (aliasOf (.enumItem ident attrs variants)) v).fields =
          v.fields.map (rewriteSpecField
            (aliasOf (.enumItem ident attrs variants))) := rfl
      rw [hfields] at hf2
      obtain ⟨f, hfmem, rfl⟩ := List.mem_map.mp hf2
      have hfid : f.ident = some s := by
        rw [← rewriteSpecField_ident
          (aliasOf (.enumItem ident attrs variants)) f]
        exact hid
      rw [rewriteSpecField]
      simp only [hfid, ha]
      simp

theorem C10_shared_namespace_witness :
    List.count "id"
      ((NameMapper.new (collectedNames
        (.enumItem "E" []
          [⟨[], "id", [⟨[], some "id", "i32"⟩], none⟩]))).map Prod.fst) = 1 :=
  (C10_shared_namespace
    (.enumItem "E" [] [⟨[], "id", [⟨[], some "id", "i32"⟩], none⟩]) "id"
    ⟨⟨[], "id", [⟨[], some "id", "i32"⟩], none⟩, by simp, rfl⟩
    ⟨⟨[], "id", [⟨[], some "id", "i32"⟩], none⟩, by simp,
      ⟨[], some "id", "i32"⟩, by simp, rfl⟩).1

end SerdeCompact
